import Mathlib

/-!
Verification of the BigDeckAI deck-tooling core against its specification.

The JavaScript source is shallowly embedded: line-oriented text is a
`List Char` (JS strings are split, trimmed and matched character by
character), plain objects used as frequency maps are association lists in
insertion order, and functions that mutate their inputs (`Array.sort()` is
in-place in JS) are modelled as returning the updated value alongside the
result.
-/

set_option maxHeartbeats 1000000

/-- Whitespace as used by `String.prototype.trim` and the regex class
`\s`, restricted to the ASCII whitespace characters that occur in deck
lists. -/
def isWs (c : Char) : Bool :=
  c = ' ' ∨ c = '\t' ∨ c = '\n' ∨ c = '\r'

/-- ASCII lower-casing, the fragment of `String.prototype.toLowerCase`
exercised by card names. -/
def jsToLower (c : Char) : Char :=
  if 'A' ≤ c ∧ c ≤ 'Z' then Char.ofNat (c.toNat + 32) else c

/-- Lower-case a whole character list. -/
def toLowerC (l : List Char) : List Char := l.map jsToLower

/-- Lower-case a string (`name.toLowerCase()`). -/
def lowerStr (s : String) : String := String.mk (toLowerC s.data)

/-- Drop trailing whitespace, the second half of `trim`. -/
def dropTrailing (l : List Char) : List Char :=
  (l.reverse.dropWhile isWs).reverse

/-- `String.prototype.trim`: drop leading and trailing whitespace. -/
def trimChars (l : List Char) : List Char :=
  dropTrailing (l.dropWhile isWs)

/-- Boolean infix (substring) test, `String.prototype.includes`. -/
def isInfixOfC (p : List Char) : List Char → Bool
  | [] => decide (p = [])
  | c :: rest => p.isPrefixOf (c :: rest) || isInfixOfC p rest

/-- `String.prototype.split('\n')`: split at every newline, keeping empty
pieces. -/
def splitNl : List Char → List (List Char)
  | [] => [[]]
  | c :: cs =>
    match splitNl cs with
    | [] => [[c]]
    | h :: t => if c = '\n' then [] :: h :: t else (c :: h) :: t

/-- `Array.prototype.join('\n')`. -/
def joinNl : List (List Char) → List Char
  | [] => []
  | [x] => x
  | x :: y :: rest => x ++ '\n' :: joinNl (y :: rest)

/-- Value of a decimal digit string, as `parseInt(s, 10)` computes it on
an all-digit input. -/
def natOfDigits (ds : List Char) : Nat :=
  ds.foldl (fun a c => a * 10 + (c.toNat - '0'.toNat)) 0

/-- A parsed deck-list entry, `{ quantity, name }` (src/ui/messages.js). -/
structure CardEntry where
  quantity : Nat
  name : String
  deriving Repr, DecidableEq

/-- The section-label words checked by `parseDeckList`; a line containing
one of them and not starting with a digit is skipped.  The source tests
the ten words in ten separate `if` statements with the identical
`!trimmed.match(/^\d/)` guard, which this single list reproduces. -/
def categoryWords : List (List Char) :=
  [ "commander".data, "creatures".data, "lands".data, "artifacts".data,
    "enchantments".data, "instants".data, "sorceries".data,
    "planeswalkers".data, "strategy".data, "win condition".data ]

/-- The `\s+(.+)$` tail of the card-line regex: at least one whitespace
character, then a non-empty capture running to the end of the line in
which `.` may not match a line terminator (`\n` or `\r`). -/
def regexTail (r : List Char) : Option (List Char) :=
  match r with
  | [] => none
  | c :: _ =>
    if isWs c then
      if r.dropWhile isWs ≠ [] ∧
          (r.dropWhile isWs).all (fun ch => ch ≠ '\n' ∧ ch ≠ '\r') then
        some (r.dropWhile isWs)
      else none
    else none

/-- The card-line regex `/^(\d+)x?\s+(.+)$/i` applied to a trimmed line:
a maximal leading digit run, an optional `x` (or `X`), whitespace, and the
trimmed remainder as the card name. -/
def matchQty (t : List Char) : Option (Nat × List Char) :=
  if t.takeWhile Char.isDigit = [] then none
  else
    (match t.dropWhile Char.isDigit with
      | [] => none
      | c :: r => if c = 'x' ∨ c = 'X' then regexTail r else regexTail (c :: r)).map
      (fun n => (natOfDigits (t.takeWhile Char.isDigit), trimChars n))

/-- One iteration of the `parseDeckList` loop: trim the line, skip blank,
markup and section-label lines, then match the quantity pattern, falling
back to a bare card name when the line has no colon and more than two
characters. -/
def parseLine (line : List Char) : Option CardEntry :=
  if trimChars line = [] then none
  else if ['#'].isPrefixOf (trimChars line) ∨ ['*', '*'].isPrefixOf (trimChars line) ∨
      ['#', '#', '#'].isPrefixOf (trimChars line) then none
  else if (categoryWords.any (fun w => isInfixOfC w (toLowerC (trimChars line))))
          ∧ ¬ ((trimChars line).head?.elim false Char.isDigit) then none
  else
    match matchQty (trimChars line) with
    | some (q, n) => some ⟨q, String.mk n⟩
    | none =>
      if ¬ (trimChars line).contains ':' ∧ (trimChars line).length > 2 then
        some ⟨1, String.mk (trimChars line)⟩
      else none

/-- `parseDeckList` (src/ui/messages.js): split the text into lines and
collect the entries of the lines that parse. -/
def parseDeckList (deckText : String) : List CardEntry :=
  (splitNl deckText.data).filterMap parseLine

/-- `formatDeckList` (src/ui/messages.js): one `1x <name>` line per
entry, joined by newlines. -/
def formatDeckList (cards : List CardEntry) : String :=
  String.mk (joinNl (cards.map (fun c => '1' :: 'x' :: ' ' :: c.name.data)))

/-- The `BASIC_LANDS` allow-list (src/ui/messages.js). -/
def BASIC_LANDS : List String :=
  [ "plains", "island", "swamp", "mountain", "forest", "wastes",
    "snow-covered plains", "snow-covered island", "snow-covered swamp",
    "snow-covered mountain", "snow-covered forest" ]

/-- `isBasicLand` (src/ui/messages.js): exact lower-case match against the
allow-list. -/
def isBasicLand (cardName : String) : Bool :=
  BASIC_LANDS.contains (lowerStr cardName)

/-- Substring test on strings (`String.prototype.includes`). -/
def containsStr (s pat : String) : Bool := isInfixOfC pat.data s.data

/-- Options of `validateParsedDeck`, with the source defaults. -/
structure ValidationOptions where
  expectedSize : Nat := 100
  isMonoColor : Bool := false
  deriving Repr, DecidableEq

/-- A `{ name, count }` duplicate record. -/
structure DupEntry where
  name : String
  count : Nat
  deriving Repr, DecidableEq

/-- The object returned by `validateParsedDeck`. -/
structure ValidationResult where
  isValid : Bool
  totalCards : Nat
  uniqueCards : Nat
  landCount : Nat
  hasDuplicates : Bool
  duplicates : List DupEntry
  errors : List String
  warnings : List String
  cards : List CardEntry
  deriving Repr, DecidableEq

/-- The `cardCounts[nameLower]` update: `+=` when the stored value is
truthy (present and non-zero), plain assignment otherwise.  An existing
key keeps its position, a new key is appended, matching JS object
property order. -/
def jsBump : List (String × Nat) → String → Nat → List (String × Nat)
  | [], k, q => [(k, q)]
  | (k', v) :: rest, k, q =>
    if k' = k then (k', if v ≠ 0 then v + q else q) :: rest
    else (k', v) :: jsBump rest k q

/-- The rough land-detection heuristic of `validateParsedDeck`, applied
to the lower-cased name. -/
def isLandName (nameLower : String) : Bool :=
  containsStr nameLower "land" ∨ BASIC_LANDS.contains nameLower ∨
    containsStr nameLower "temple" ∨ containsStr nameLower "fountain" ∨
    containsStr nameLower "shock" ∨ containsStr nameLower "gate"

/-- The body of the `validateParsedDeck` card loop, acting on the
accumulator `(cardCounts, totalCards, landCount)`. -/
def countStep (acc : List (String × Nat) × Nat × Nat) (card : CardEntry) :
    List (String × Nat) × Nat × Nat :=
  let nameLower := lowerStr card.name
  let counts := if isBasicLand card.name then acc.1 else jsBump acc.1 nameLower card.quantity
  let lands := if isLandName nameLower then acc.2.2 + card.quantity else acc.2.2
  (counts, acc.2.1 + card.quantity, lands)

/-- The accumulating pass of the `validateParsedDeck` card loop. -/
def countCards (cards : List CardEntry) : List (String × Nat) × Nat × Nat :=
  cards.foldl countStep ([], 0, 0)

/-- The duplicate error message pushed by `validateParsedDeck`. -/
def dupMsg (name : String) (count : Nat) : String :=
  "Duplicate card: \"" ++ name ++ "\" appears " ++ toString count ++
    " times (singleton format allows only 1)"

/-- `validateParsedDeck` (src/ui/messages.js). -/
def validateParsedDeck (cards : List CardEntry) (options : ValidationOptions := {}) :
    ValidationResult :=
  let acc := countCards cards
  let cardCounts := acc.1
  let totalCards := acc.2.1
  let landCount := acc.2.2
  let dups := cardCounts.filter (fun p => p.2 > 1)
  let duplicates := dups.map (fun p => DupEntry.mk p.1 p.2)
  let dupErrors := dups.map (fun p => dupMsg p.1 p.2)
  let sizeErrors :=
    if totalCards ≠ options.expectedSize then
      if totalCards < options.expectedSize then
        ["Deck has only " ++ toString totalCards ++ " cards (needs exactly " ++
          toString options.expectedSize ++ ")"]
      else
        ["Deck has " ++ toString totalCards ++ " cards (maximum is " ++
          toString options.expectedSize ++ ")"]
    else []
  let errors := dupErrors ++ sizeErrors
  let expectedLands := if options.isMonoColor then 32 else 36
  let warnings :=
    if landCount < expectedLands - 5 then
      ["Deck may have too few lands: ~" ++ toString landCount ++
        " detected (recommended: " ++ toString expectedLands ++ ")"]
    else []
  { isValid := errors.isEmpty
    totalCards := totalCards
    uniqueCards := cardCounts.length
    landCount := landCount
    hasDuplicates := duplicates.length > 0
    duplicates := duplicates
    errors := errors
    warnings := warnings
    cards := cards }

/-- `validateDeckList` (src/ui/messages.js): parse, then validate. -/
def validateDeckList (deckText : String) (options : ValidationOptions := {}) :
    ValidationResult :=
  validateParsedDeck (parseDeckList deckText) options

/-- The loop of `removeDuplicates`, with the `seen` set of lower-cased
non-basic names carried as a list. -/
def removeDupGo (seen : List String) : List CardEntry → List CardEntry
  | [] => []
  | c :: rest =>
    if isBasicLand c.name then c :: removeDupGo seen rest
    else if seen.contains (lowerStr c.name) then removeDupGo seen rest
    else ⟨1, c.name⟩ :: removeDupGo (seen ++ [lowerStr c.name]) rest

/-- `removeDuplicates` (src/ui/messages.js): keep every basic land, keep
the first occurrence of each other name with quantity forced to 1. -/
def removeDuplicates (cards : List CardEntry) : List CardEntry :=
  removeDupGo [] cards

/-- An untyped JavaScript value, as far as the return values of the
frequency helpers are concerned: `null`, a plain string, or a
`{ name, count }` object. -/
inductive JsValue where
  | null
  | str (s : String)
  | obj (name : String) (count : Nat)
  deriving Repr, DecidableEq

/-- `m[k] = (m[k] || 0) + 1` on a plain object used as a frequency map:
an existing key keeps its position, a new key is appended. -/
def bumpOne : List (String × Nat) → String → List (String × Nat)
  | [], k => [(k, 1)]
  | (k', v) :: rest, k =>
    if k' = k then (k', v + 1) :: rest else (k', v) :: bumpOne rest k

/-- Stable insertion into a list sorted descending by count: the new
element goes before the first strictly smaller count, after equal ones. -/
def insertDesc (x : String × Nat) : List (String × Nat) → List (String × Nat)
  | [] => [x]
  | y :: ys => if x.2 ≥ y.2 then x :: y :: ys else y :: insertDesc x ys

/-- `entries.sort((a, b) => b[1] - a[1])`: a stable sort of the entry list
descending by count (ties keep insertion order). -/
def sortByCountDesc : List (String × Nat) → List (String × Nat)
  | [] => []
  | x :: xs => insertDesc x (sortByCountDesc xs)

/-- `RecommendationEngine.getMostCommon`: `null` on an empty map,
otherwise the key (a plain string) of the first entry of the sorted
entry list. -/
def getMostCommon (frequencyMap : List (String × Nat)) : JsValue :=
  if frequencyMap = [] then JsValue.null
  else
    match (sortByCountDesc frequencyMap).head? with
    | some p => JsValue.str p.1
    | none => JsValue.null

/-- Modelled from the spec: `mostCommon(map)` returning "a single
RankedEntry or null if the map is empty", where a RankedEntry is a
`{name, count}` pair produced by sorting the map descending by count.
Stated only to compare with the source's `getMostCommon`. -/
def mostCommonSpecRanked (frequencyMap : List (String × Nat)) : JsValue :=
  if frequencyMap = [] then JsValue.null
  else
    match (sortByCountDesc frequencyMap).head? with
    | some p => JsValue.obj p.1 p.2
    | none => JsValue.null

/-- A history entry held by `RecommendationEngine.userHistory`.  `colors`
is the raw letter array of the stored deck object (mutated in place by
`Array.prototype.sort`), `cards` keeps only the card names the staple
scan extracts. -/
structure HistoryEntry where
  commander : Option String := none
  strategy : Option String := none
  colors : Option (List Char) := none
  cards : Option (List String) := none
  timestamp : String := ""
  deriving Repr, DecidableEq

/-- Ascending insertion for the default `Array.prototype.sort`, which
compares the single-letter color strings lexicographically. -/
def insertAsc (x : Char) : List Char → List Char
  | [] => [x]
  | y :: ys => if x ≤ y then x :: y :: ys else y :: insertAsc x ys

/-- `colors.sort()` with the default comparator. -/
def sortChars : List Char → List Char
  | [] => []
  | x :: xs => insertAsc x (sortChars xs)

/-- `RecommendationEngine.addToHistory`: push a copy of the deck with a
timestamp; the clock is passed explicitly. -/
def addToHistory (history : List HistoryEntry) (deck : HistoryEntry) (ts : String) :
    List HistoryEntry :=
  history ++ [{ deck with timestamp := ts }]

/-- `RecommendationEngine.clearHistory`. -/
def clearHistory (_history : List HistoryEntry) : List HistoryEntry := []

/-- The analysis object returned by `RecommendationEngine.analyzeHistory`. -/
structure HistoryAnalysis where
  totalDecks : Nat
  commanders : List (String × Nat)
  strategies : List (String × Nat)
  colors : List (String × Nat)
  mostPlayedCommander : JsValue
  favoriteStrategy : JsValue
  favoriteColors : JsValue
  deriving Repr, DecidableEq

/-- In JS `if (deck.commander)` is a truthiness test: absent and empty
strings are both falsy. -/
def truthyStr : Option String → Bool
  | none => false
  | some s => s ≠ ""

/-- The loop body of `analyzeHistory`: count the commander, strategy and
(sorted) color combination of one stored deck, and record the deck as the
in-place `colors.sort()` leaves it. -/
def histStep
    (acc : (List (String × Nat) × List (String × Nat) × List (String × Nat)) × List HistoryEntry)
    (deck : HistoryEntry) :
    (List (String × Nat) × List (String × Nat) × List (String × Nat)) × List HistoryEntry :=
  let cmds := if truthyStr deck.commander then bumpOne acc.1.1 (deck.commander.getD "") else acc.1.1
  let strats := if truthyStr deck.strategy then bumpOne acc.1.2.1 (deck.strategy.getD "") else acc.1.2.1
  match deck.colors with
  | some cs =>
    let sorted := sortChars cs
    let colorKey := String.mk sorted
    ((cmds, strats, bumpOne acc.1.2.2 colorKey), acc.2 ++ [{ deck with colors := some sorted }])
  | none => ((cmds, strats, acc.1.2.2), acc.2 ++ [deck])

/-- `RecommendationEngine.analyzeHistory`.  `deck.colors.sort()` sorts the
stored array in place, so the function returns the analysis together with
the history as it is left after the loop. -/
def analyzeHistory (userHistory : List HistoryEntry) :
    HistoryAnalysis × List HistoryEntry :=
  let res := userHistory.foldl histStep (([], [], []), [])
  let commanders := res.1.1
  let strategies := res.1.2.1
  let colors := res.1.2.2
  ({ totalDecks := userHistory.length
     commanders := commanders
     strategies := strategies
     colors := colors
     mostPlayedCommander := getMostCommon commanders
     favoriteStrategy := getMostCommon strategies
     favoriteColors := getMostCommon colors }, res.2)

/-- A gap record pushed by `RecommendationEngine.identifyGaps`. -/
structure Gap where
  type : String
  description : String
  suggestion : String
  deriving Repr, DecidableEq

/-- `RecommendationEngine.colorName`. -/
def colorName (color : Char) : String :=
  if color = 'W' then "White"
  else if color = 'U' then "Blue"
  else if color = 'B' then "Black"
  else if color = 'R' then "Red"
  else if color = 'G' then "Green"
  else String.mk [color]

/-- The fixed archetype list of `identifyGaps`. -/
def commonStrategies : List String :=
  [ "aggro", "control", "combo", "midrange", "tribal",
    "voltron", "aristocrats", "tokens", "spellslinger" ]

/-- `RecommendationEngine.identifyGaps`.  The `profileAnalysis` argument
is accepted (at any type, as in untyped JS) and, as in the source, never
read.  The call to `analyzeHistory` sorts stored color arrays in place,
so the updated history is returned as well. -/
def identifyGaps {α : Type} (_profileAnalysis : α) (userHistory : List HistoryEntry) :
    List Gap × List HistoryEntry :=
  let res := analyzeHistory userHistory
  let history := res.1
  let allColors : List Char := ['W', 'U', 'B', 'R', 'G']
  let played := fun (c : Char) => history.colors.any (fun p => p.1.data.contains c)
  let unplayedColors := allColors.filter (fun c => ¬ played c)
  let apos := String.mk [Char.ofNat 39]
  let colorGaps :=
    if unplayedColors ≠ [] then
      [ Gap.mk "colors"
          ("Haven" ++ apos ++ "t explored: " ++
            String.intercalate ", " (unplayedColors.map (fun c => String.mk [c])))
          ("Try building with " ++ String.mk [unplayedColors.headD 'W'] ++ " (" ++
            colorName (unplayedColors.headD 'W') ++ ")") ]
    else []
  let playedStrategies := history.strategies.map (fun p => p.1)
  let unplayedStrategies := commonStrategies.filter (fun s => ¬ playedStrategies.contains s)
  let strategyGaps :=
    if unplayedStrategies ≠ [] then
      [ Gap.mk "strategies"
          ("Unexplored strategies: " ++ String.intercalate ", " (unplayedStrategies.take 3))
          ("Consider trying a " ++ unplayedStrategies.headD "" ++ " deck") ]
    else []
  (colorGaps ++ strategyGaps, res.2)

/-- A JSON value, the image of `JSON.parse` on well-formed input. -/
inductive JsonValue where
  | null
  | bool (b : Bool)
  | num (n : Int)
  | str (s : String)
  | arr (l : List JsonValue)
  | obj (fields : List (String × JsonValue))

/-- `Array.isArray`. -/
def JsonValue.isArr : JsonValue → Bool
  | .arr _ => true
  | _ => false

/-- `RecommendationEngine.importHistory`.  The argument is the outcome of
`JSON.parse` on the given text (`Except.error m` when the parse throws
with message `m`).  A parse failure is re-thrown wrapped; a successful
parse that is not an array is silently replaced by the empty history. -/
def importHistory (parsed : Except String JsonValue) :
    Except String (List JsonValue) :=
  match parsed with
  | .error m => .error ("Failed to import history: " ++ m)
  | .ok (.arr l) => .ok l
  | .ok _ => .ok []

/-- `YouTubeLearner.importKnowledge` (src/learning/youtubeLearner.js).
The argument is the outcome of `JSON.parse`.  Both a parse failure and a
non-array payload throw (the inner `Invalid knowledge data` error is
caught and re-wrapped by the surrounding try/catch). -/
def importKnowledge (parsed : Except String JsonValue) :
    Except String (List JsonValue) :=
  match parsed with
  | .error m => .error ("Failed to import knowledge: " ++ m)
  | .ok (.arr l) => .ok l
  | .ok _ =>
    .error ("Failed to import knowledge: " ++ "Invalid knowledge data: expected an array")

/-- A deck record as consumed by `MoxfieldAPI.analyzeUserPatterns`:
`format`, the card names of the `commanders` entries (`card?.name`, so
possibly missing), the `colorIdentity` letter array and the deck name. -/
structure MoxDeck where
  format : Option String := none
  commanders : Option (List (Option String)) := none
  colorIdentity : Option (List Char) := none
  name : Option String := none
  deriving Repr, DecidableEq

/-- A `{ name, count }` ranked entry. -/
structure RankedEntry where
  name : String
  count : Nat
  deriving Repr, DecidableEq

/-- A `{ colors, count }` ranked color-combination entry. -/
structure ColorComboEntry where
  colors : String
  count : Nat
  deriving Repr, DecidableEq

/-- The pattern object returned by `analyzeUserPatterns` (the local
`themes` array is collected but not part of the returned object). -/
structure MoxPatterns where
  formats : List (String × Nat)
  commanders : List (String × Nat)
  colors : List (String × Nat)
  favoriteFormat : Option String
  topCommanders : List RankedEntry
  topColorCombos : List ColorComboEntry
  deriving Repr, DecidableEq

/-- `commander.card?.name || 'Unknown'`: both a missing card and an empty
name are falsy. -/
def commanderName (o : Option String) : String :=
  match o with
  | some s => if s = "" then "Unknown" else s
  | none => "Unknown"

/-- `deck.format || 'unknown'`. -/
def formatName (o : Option String) : String :=
  match o with
  | some s => if s = "" then "unknown" else s
  | none => "unknown"

/-- The loop body of `analyzeUserPatterns`: count the format, the
commanders and the (sorted) color identity of one deck record, and record
the deck as the in-place `colorIdentity.sort()` leaves it. -/
def moxStep
    (acc : (List (String × Nat) × List (String × Nat) × List (String × Nat)) × List MoxDeck)
    (deck : MoxDeck) :
    (List (String × Nat) × List (String × Nat) × List (String × Nat)) × List MoxDeck :=
  let formats := bumpOne acc.1.1 (formatName deck.format)
  let commanders :=
    match deck.commanders with
    | some cs =>
      if cs.length > 0 then cs.foldl (fun m o => bumpOne m (commanderName o)) acc.1.2.1
      else acc.1.2.1
    | none => acc.1.2.1
  match deck.colorIdentity with
  | some ci =>
    if ci.length > 0 then
      let sorted := sortChars ci
      ((formats, commanders, bumpOne acc.1.2.2 (String.mk sorted)),
        acc.2 ++ [{ deck with colorIdentity := some sorted }])
    else ((formats, commanders, acc.1.2.2), acc.2 ++ [deck])
  | none => ((formats, commanders, acc.1.2.2), acc.2 ++ [deck])

/-- `MoxfieldAPI.analyzeUserPatterns` (moxfield integration).  The
`colorIdentity.sort()` call sorts each deck record's array in place, so
the function returns the patterns together with the deck list as the
loop leaves it. -/
def analyzeUserPatterns (decks : List MoxDeck) : MoxPatterns × List MoxDeck :=
  let res := decks.foldl moxStep (([], [], []), [])
  let formats := res.1.1
  let commanders := res.1.2.1
  let colors := res.1.2.2
  ({ formats := formats
     commanders := commanders
     colors := colors
     favoriteFormat := ((sortByCountDesc formats).head?).map (fun p => p.1)
     topCommanders := ((sortByCountDesc commanders).take 5).map (fun p => RankedEntry.mk p.1 p.2)
     topColorCombos := ((sortByCountDesc colors).take 5).map (fun p => ColorComboEntry.mk p.1 p.2) },
    res.2)

/-- A scraped meta-deck record; `metaShare` is the raw display string. -/
structure MetaDeckRecord where
  name : String
  url : String
  metaShare : String
  deriving Repr, DecidableEq

/-- The `{ popular, emerging, declining }` trends object. -/
structure Trends where
  popular : List String
  emerging : List String
  declining : List String
  deriving Repr, DecidableEq

/-- Remove the first `%`, as `String.prototype.replace('%', '')` does. -/
def removeFirstPct : List Char → List Char
  | [] => []
  | c :: rest => if c = '%' then rest else c :: removeFirstPct rest

/-- `parseFloat` on an already-trimmed string: longest decimal-literal
prefix `[+-]? digits [. digits] [eE [+-]? digits]`, `none` for `NaN`.
The value is kept exact as an unreduced fraction `(numerator,
denominator)` with a positive power-of-ten denominator — the analyzer
only ever compares it with 0 and 5, for which the exact rational and the
IEEE double agree on the inputs in range; the `Infinity` literal is
outside the inputs this model is used on. -/
def jsParseFloat (s : List Char) : Option (Int × Nat) :=
  match s with
  | '+' :: r => jsParseFloatCore r
  | '-' :: r => (jsParseFloatCore r).map (fun p => (-p.1, p.2))
  | r => jsParseFloatCore r
where
  /-- The unsigned part of the literal. -/
  jsParseFloatCore (r : List Char) : Option (Int × Nat) :=
    let intDigits := r.takeWhile Char.isDigit
    let r1 := r.dropWhile Char.isDigit
    let fracDigits :=
      match r1 with
      | '.' :: r2 => r2.takeWhile Char.isDigit
      | _ => []
    let r3 :=
      match r1 with
      | '.' :: r2 => r2.dropWhile Char.isDigit
      | _ => r1
    if intDigits = [] ∧ fracDigits = [] then none
    else
      let num : Int := (natOfDigits intDigits * 10 ^ fracDigits.length + natOfDigits fracDigits : Nat)
      let den : Nat := 10 ^ fracDigits.length
      let withExp : Int × Nat :=
        match r3 with
        | 'e' :: rest => expPart num den rest
        | 'E' :: rest => expPart num den rest
        | _ => (num, den)
      some withExp
  /-- Apply an exponent suffix when its digits are present. -/
  expPart (num : Int) (den : Nat) (rest : List Char) : Int × Nat :=
    match rest with
    | '+' :: ds => if ds.takeWhile Char.isDigit = [] then (num, den)
        else (num * 10 ^ natOfDigits (ds.takeWhile Char.isDigit), den)
    | '-' :: ds => if ds.takeWhile Char.isDigit = [] then (num, den)
        else (num, den * 10 ^ natOfDigits (ds.takeWhile Char.isDigit))
    | ds => if ds.takeWhile Char.isDigit = [] then (num, den)
        else (num * 10 ^ natOfDigits (ds.takeWhile Char.isDigit), den)

/-- The emerging-deck predicate of `identifyTrends`:
`String(d.metaShare || '0').replace('%', '').trim()` parsed as a float,
kept when `!isNaN(share) && share > 0 && share < 5`; on the fraction
`(n, d)` these comparisons are `0 < n` and `n < 5 * d`. -/
def isLowShare (d : MetaDeckRecord) : Bool :=
  let raw := if d.metaShare = "" then "0" else d.metaShare
  match jsParseFloat (trimChars (removeFirstPct raw.data)) with
  | some share => decide (0 < share.1 ∧ share.1 < 5 * (share.2 : Int))
  | none => false

/-- `MetaAnalyzer.identifyTrends` (src/learning/profileAnalyzer.js). -/
def identifyTrends (metaDecks : List MetaDeckRecord) : Trends :=
  let popular :=
    if metaDecks.length ≥ 3 then (metaDecks.take 3).map (fun d => d.name) else []
  let lowShareDecks := metaDecks.filter isLowShare
  let emerging :=
    if lowShareDecks.length > 0 then (lowShareDecks.take 3).map (fun d => d.name) else []
  { popular := popular, emerging := emerging, declining := [] }

/-- The in-place effect of `analyzeUserPatterns` on one deck record:
`colorIdentity.sort()` runs exactly when the array is present and
non-empty; no other field changes. -/
def moxMutate (d : MoxDeck) : MoxDeck :=
  match d.colorIdentity with
  | some ci => if ci.length > 0 then { d with colorIdentity := some (sortChars ci) } else d
  | none => d

/-- The in-place effect of `analyzeHistory` on one stored entry:
`colors.sort()` runs whenever the array is present (also when empty,
since `if (deck.colors)` is true for `[]`); no other field changes. -/
def histMutate (e : HistoryEntry) : HistoryEntry :=
  match e.colors with
  | some cs => { e with colors := some (sortChars cs) }
  | none => e


/-- A card contributes to the duplicate count of the lower-cased name `n`
when it is not a basic land and its lower-cased name is `n`. -/
def contrib (n : String) (c : CardEntry) : Bool :=
  !isBasicLand c.name && (lowerStr c.name == n)

/-- Case-insensitive summed quantity of the non-basic-land cards whose
lower-cased name is `n`. -/
def nonBasicSum (cards : List CardEntry) (n : String) : Nat :=
  ((cards.filter (contrib n)).map (fun c => c.quantity)).sum

/-- The 100-card deck of the spec's example: `2x Sol Ring` plus 98
distinct singleton cards. -/
def deck100 : List CardEntry :=
  CardEntry.mk 2 "Sol Ring" ::
    (List.range 98).map (fun i => CardEntry.mk 1 ("Card " ++ toString i))

/-- A card name in canonical shape: non-empty, no leading or trailing
whitespace, and free of line terminators.  Every name produced by
`parseLine` on a terminator-free line has this shape, and a `1x <name>`
line built from such a name re-parses to exactly that name. -/
def NiceName (l : List Char) : Prop :=
  l ≠ [] ∧
  (∀ c, l.head? = some c → isWs c = false) ∧
  (∀ c, l.getLast? = some c → isWs c = false) ∧
  (∀ c ∈ l, c ≠ '\n' ∧ c ≠ '\r')

/-! ## Frame and mutation lemmas -/

theorem moxStep_snd (acc) (d : MoxDeck) : (moxStep acc d).2 = acc.2 ++ [moxMutate d] := by
  unfold moxStep moxMutate
  cases d.colorIdentity with
  | none => rfl
  | some ci => by_cases h : ci.length > 0 <;> simp [h]

theorem histStep_snd (acc) (e : HistoryEntry) : (histStep acc e).2 = acc.2 ++ [histMutate e] := by
  unfold histStep histMutate
  cases e.colors with
  | none => rfl
  | some cs => rfl

theorem foldl_moxStep_snd (decks : List MoxDeck) :
    ∀ init, (decks.foldl moxStep init).2 = init.2 ++ decks.map moxMutate := by
  induction decks with
  | nil => intro init; simp
  | cons d rest ih =>
    intro init
    rw [List.foldl_cons, List.map_cons, ih, moxStep_snd, List.append_assoc]
    rfl

theorem foldl_histStep_snd (hist : List HistoryEntry) :
    ∀ init, (hist.foldl histStep init).2 = init.2 ++ hist.map histMutate := by
  induction hist with
  | nil => intro init; simp
  | cons e rest ih =>
    intro init
    rw [List.foldl_cons, List.map_cons, ih, histStep_snd, List.append_assoc]
    rfl

/-- C5 (counterexample): the claim says `analyzeUserPatterns` leaves its
input deck records unchanged and `analyzeHistory` leaves every stored
entry unchanged; both fail on a record whose color array is stored as
`['W', 'U']`, which the in-place `sort()` reorders to `['U', 'W']`. -/
theorem claim_C5_counterexample :
    (analyzeUserPatterns [{ colorIdentity := some ['W', 'U'] }]).2 ≠
      [({ colorIdentity := some ['W', 'U'] } : MoxDeck)] ∧
    (analyzeHistory [{ colors := some ['W', 'U'] }]).2 ≠
      [({ colors := some ['W', 'U'] } : HistoryEntry)] := by
  decide

/-- C5 (amended): `analyzeUserPatterns` and `analyzeHistory` do have one
side effect each — sorting the color array of every processed record in
place — and change nothing else about their inputs; apart from that, the
history list is only modified by the explicit append (`addToHistory`) and
clear (`clearHistory`) operations. -/
theorem claim_C5 :
    (∀ decks : List MoxDeck, (analyzeUserPatterns decks).2 = decks.map moxMutate) ∧
    (∀ hist : List HistoryEntry, (analyzeHistory hist).2 = hist.map histMutate) ∧
    (∀ (hist : List HistoryEntry) (deck : HistoryEntry) (ts : String),
      addToHistory hist deck ts = hist ++ [{ deck with timestamp := ts }]) ∧
    (∀ hist : List HistoryEntry, clearHistory hist = []) := by
  refine ⟨?_, ?_, fun _ _ _ => rfl, fun _ => rfl⟩
  · intro decks
    show (decks.foldl moxStep (([], [], []), [])).2 = decks.map moxMutate
    rw [foldl_moxStep_snd]
    rfl
  · intro hist
    show (hist.foldl histStep (([], [], []), [])).2 = hist.map histMutate
    rw [foldl_histStep_snd]
    rfl

/-- C10: `identifyGaps` never reads its `profileAnalysis` argument — for
any two argument values (of any types, matching the untyped JS call
sites) and the same internal history, the returned gap lists (and the
post-call history) are identical. -/
theorem claim_C10 {α β : Type} (p : α) (q : β) (userHistory : List HistoryEntry) :
    identifyGaps p userHistory = identifyGaps q userHistory := rfl

/-- C3 (counterexample): on valid JSON that is not an array (here the
number 5), `importHistory` does not raise — it silently replaces the
history by the empty list — while `importKnowledge` is the path that
raises; the claim states the exact opposite for both. -/
theorem claim_C3_counterexample :
    importHistory (Except.ok (JsonValue.num 5)) = Except.ok [] ∧
    importKnowledge (Except.ok (JsonValue.num 5)) =
      Except.error "Failed to import knowledge: Invalid knowledge data: expected an array" :=
  ⟨rfl, rfl⟩

/-- C3 (amended): both import paths raise on malformed JSON (a parse
failure is re-wrapped), but on a well-formed non-array payload the roles
are the opposite of the claim: the history path (`importHistory`)
silently coerces to the empty list, while the knowledge path
(`importKnowledge`) raises an explicit error. -/
theorem claim_C3 :
    (∀ m, importHistory (Except.error m) = Except.error ("Failed to import history: " ++ m)) ∧
    (∀ l, importHistory (Except.ok (JsonValue.arr l)) = Except.ok l) ∧
    (∀ v : JsonValue, v.isArr = false → importHistory (Except.ok v) = Except.ok []) ∧
    (∀ m, importKnowledge (Except.error m) = Except.error ("Failed to import knowledge: " ++ m)) ∧
    (∀ l, importKnowledge (Except.ok (JsonValue.arr l)) = Except.ok l) ∧
    (∀ v : JsonValue, v.isArr = false → importKnowledge (Except.ok v) =
      Except.error ("Failed to import knowledge: " ++ "Invalid knowledge data: expected an array")) := by
  refine ⟨fun _ => rfl, fun _ => rfl, ?_, fun _ => rfl, fun _ => rfl, ?_⟩
  · intro v hv
    cases v <;> first | rfl | exact absurd hv (by simp [JsonValue.isArr])
  · intro v hv
    cases v <;> first | rfl | exact absurd hv (by simp [JsonValue.isArr])

/-- C3 (witness): the amended theorem instantiated at the JSON number 3. -/
theorem claim_C3_witness :
    JsonValue.isArr (JsonValue.num 3) = false ∧
    importHistory (Except.ok (JsonValue.num 3)) = Except.ok [] :=
  ⟨rfl, claim_C3.2.2.1 (JsonValue.num 3) rfl⟩

/-! ## Trend classification (C6) -/

/-- C6 (counterexample): on a single-record list the claim makes the
popular tier the (prefix of the) first three names, but the code only
fills `popular` when at least 3 records exist, so it stays empty. -/
theorem claim_C6_counterexample :
    (identifyTrends [MetaDeckRecord.mk "A" "u" "10%"]).popular = [] ∧
    (identifyTrends [MetaDeckRecord.mk "A" "u" "10%"]).popular ≠
      ([MetaDeckRecord.mk "A" "u" "10%"].take 3).map (fun d => d.name) := by
  decide

/-- C6 (amended): for every record list, `popular` is the first three
names in input order when the list has at least 3 records and is empty
otherwise; `emerging` is the first at most 3 records whose share,
normalized by stripping a `%` and parsing as a float, lies strictly
between 0 and 5; `declining` is always empty.  The spec's own example
(shares 10%, 8%, 6%, 4%, 2%) is included. -/
theorem claim_C6 :
    (∀ metaDecks : List MetaDeckRecord,
      (identifyTrends metaDecks).declining = [] ∧
      (identifyTrends metaDecks).popular =
        (if metaDecks.length ≥ 3 then (metaDecks.take 3).map (fun d => d.name) else []) ∧
      (identifyTrends metaDecks).emerging =
        ((metaDecks.filter isLowShare).take 3).map (fun d => d.name)) ∧
    ((identifyTrends
        [MetaDeckRecord.mk "A" "u" "10%", MetaDeckRecord.mk "B" "u" "8%",
          MetaDeckRecord.mk "C" "u" "6%", MetaDeckRecord.mk "D" "u" "4%",
          MetaDeckRecord.mk "E" "u" "2%"]).popular = ["A", "B", "C"] ∧
      (identifyTrends
        [MetaDeckRecord.mk "A" "u" "10%", MetaDeckRecord.mk "B" "u" "8%",
          MetaDeckRecord.mk "C" "u" "6%", MetaDeckRecord.mk "D" "u" "4%",
          MetaDeckRecord.mk "E" "u" "2%"]).emerging = ["D", "E"]) := by
  constructor
  · intro md
    refine ⟨rfl, rfl, ?_⟩
    by_cases h : (md.filter isLowShare).length > 0
    · simp [identifyTrends, h]
    · have h0 : md.filter isLowShare = [] :=
        List.length_eq_zero.mp (Nat.eq_zero_of_not_pos h)
      simp [identifyTrends, h, h0]
  · exact ⟨by decide, by decide⟩

/-! ## Most-common lookup (C8) -/

/-- The head of the descending stable sort exists for a non-empty list,
belongs to the list, and its count is maximal. -/
theorem sortByCountDesc_head_max :
    ∀ m : List (String × Nat), m ≠ [] →
      ∃ h t, sortByCountDesc m = h :: t ∧ h ∈ m ∧ ∀ p ∈ m, p.2 ≤ h.2 := by
  intro m
  induction m with
  | nil => intro hne; exact absurd rfl hne
  | cons x xs ih =>
    intro _
    by_cases hxs : xs = []
    · subst hxs
      exact ⟨x, [], rfl, List.mem_cons_self x [], fun p hp => by
        rcases List.mem_cons.mp hp with rfl | hp'
        · exact Nat.le_refl _
        · exact absurd hp' (List.not_mem_nil p)⟩
    · obtain ⟨h', t', hsort, hmem, hmax⟩ := ih hxs
      show ∃ h t, insertDesc x (sortByCountDesc xs) = h :: t ∧ _
      rw [hsort]
      by_cases hc : x.2 ≥ h'.2
      · refine ⟨x, h' :: t', by simp [insertDesc, hc], List.mem_cons_self x xs, ?_⟩
        intro p hp
        rcases List.mem_cons.mp hp with rfl | hp'
        · exact Nat.le_refl _
        · exact Nat.le_trans (hmax p hp') hc
      · refine ⟨h', insertDesc x t', by simp [insertDesc, hc], List.mem_cons_of_mem x hmem, ?_⟩
        intro p hp
        rcases List.mem_cons.mp hp with rfl | hp'
        · exact Nat.le_of_lt (Nat.lt_of_not_le hc)
        · exact hmax p hp'

/-- C8 (counterexample): the claim says the non-null result is a
`{name, count}` RankedEntry; the code returns `entries.sort(...)[0][0]`,
the bare key string.  At the map `{a: 2}` the returned JS value is the
string `"a"`, not the object `{name: "a", count: 2}` the spec-modelled
variant produces. -/
theorem claim_C8_counterexample :
    getMostCommon [("a", 2)] = JsValue.str "a" ∧
    mostCommonSpecRanked [("a", 2)] = JsValue.obj "a" 2 ∧
    JsValue.str "a" ≠ JsValue.obj "a" 2 := by
  decide

/-- C8 (amended): `getMostCommon` returns `null` exactly on the empty
map, and otherwise returns the name (a bare string, not a
`{name, count}` pair) of an entry whose count is maximal in the map. -/
theorem claim_C8 :
    getMostCommon [] = JsValue.null ∧
    (∀ m : List (String × Nat), m ≠ [] →
      ∃ name count, getMostCommon m = JsValue.str name ∧ (name, count) ∈ m ∧
        ∀ p ∈ m, p.2 ≤ count) := by
  refine ⟨rfl, ?_⟩
  intro m hm
  obtain ⟨h, t, hsort, hmem, hmax⟩ := sortByCountDesc_head_max m hm
  refine ⟨h.1, h.2, ?_, hmem, hmax⟩
  unfold getMostCommon
  rw [if_neg hm, hsort]
  rfl

/-- C8 (witness): the amended theorem instantiated at `{a: 2, b: 5}`. -/
theorem claim_C8_witness :
    ([("a", 2), ("b", 5)] : List (String × Nat)) ≠ [] ∧
    ∃ name count, getMostCommon [("a", 2), ("b", 5)] = JsValue.str name ∧
      (name, count) ∈ ([("a", 2), ("b", 5)] : List (String × Nat)) ∧
      ∀ p ∈ ([("a", 2), ("b", 5)] : List (String × Nat)), p.2 ≤ count :=
  ⟨by decide, claim_C8.2 [("a", 2), ("b", 5)] (by decide)⟩

/-! ## Totality of parsing and validation (C9) -/

/-- C9: parsing and validation are total.  The parser returns one
(possibly dropped) entry per line — malformed input only shrinks the
output, never fails — and the validator always returns a result object
whose `isValid` is exactly emptiness of its `errors` list and which
carries the input cards through. -/
theorem claim_C9 (deckText : String) (cards : List CardEntry) (opts : ValidationOptions) :
    (parseDeckList deckText).length ≤ (splitNl deckText.data).length ∧
    (validateParsedDeck cards opts).isValid = (validateParsedDeck cards opts).errors.isEmpty ∧
    (validateParsedDeck cards opts).cards = cards :=
  ⟨List.length_filterMap_le _ _, rfl, rfl⟩

/-! ## Validator correctness (C1) -/

theorem jsBump_lookup (m : List (String × Nat)) (k : String) (q : Nat) (j : String) :
    (jsBump m k q).lookup j =
      if j = k then some ((m.lookup k).getD 0 + q) else m.lookup j := by
  induction m with
  | nil =>
    by_cases h : j = k
    · subst h; simp [jsBump, List.lookup]
    · have hb : (j == k) = false := beq_eq_false_iff_ne.mpr h
      simp [jsBump, List.lookup, h, hb]
  | cons p rest ih =>
    obtain ⟨k', v⟩ := p
    by_cases hk : k' = k
    · subst hk
      have hval : (if v ≠ 0 then v + q else q) = v + q := by
        by_cases hv : v = 0 <;> simp [hv]
      by_cases h : j = k'
      · subst h; simp [jsBump, List.lookup, hval]
      · have hb : (j == k') = false := beq_eq_false_iff_ne.mpr h
        simp [jsBump, List.lookup, h, hb]
    · have hkk : (k == k') = false := beq_eq_false_iff_ne.mpr fun he => hk he.symm
      simp only [jsBump, if_neg hk]
      by_cases h : j = k'
      · subst h
        simp [List.lookup, hk]
      · have hb : (j == k') = false := beq_eq_false_iff_ne.mpr h
        simp [List.lookup, hb, hkk, ih]

theorem lookup_mem {m : List (String × Nat)} {n : String} {v : Nat}
    (h : m.lookup n = some v) : (n, v) ∈ m := by
  induction m with
  | nil => simp [List.lookup] at h
  | cons p rest ih =>
    obtain ⟨k, w⟩ := p
    rw [List.lookup] at h
    by_cases hk : n = k
    · subst hk
      simp at h
      subst h
      exact List.mem_cons_self _ _
    · have hbeq : (n == k) = false := beq_eq_false_iff_ne.mpr hk
      rw [hbeq] at h
      exact List.mem_cons_of_mem _ (ih h)

theorem foldl_countStep_lookup (cards : List CardEntry) :
    ∀ (m₀ : List (String × Nat)) (t₀ l₀ : Nat) (n : String),
      ((cards.foldl countStep (m₀, t₀, l₀)).1).lookup n =
        (match m₀.lookup n with
          | some v => some (v + nonBasicSum cards n)
          | none => if cards.any (contrib n) then some (nonBasicSum cards n) else none) := by
  induction cards with
  | nil =>
    intro m₀ t₀ l₀ n
    cases h : m₀.lookup n <;> simp [nonBasicSum, h]
  | cons c rest ih =>
    intro m₀ t₀ l₀ n
    rw [List.foldl_cons]
    rw [show countStep (m₀, t₀, l₀) c =
      ((countStep (m₀, t₀, l₀) c).1, (countStep (m₀, t₀, l₀) c).2.1,
        (countStep (m₀, t₀, l₀) c).2.2) from rfl]
    rw [ih]
    by_cases hb : isBasicLand c.name
    · have hfst : (countStep (m₀, t₀, l₀) c).1 = m₀ := by simp [countStep, hb]
      have hcontrib : contrib n c = false := by simp [contrib, hb]
      have hsum : nonBasicSum (c :: rest) n = nonBasicSum rest n := by
        simp [nonBasicSum, List.filter_cons, hcontrib]
      have hany : (c :: rest).any (contrib n) = rest.any (contrib n) := by
        simp [List.any_cons, hcontrib]
      rw [hfst, hsum, hany]
    · have hfst : (countStep (m₀, t₀, l₀) c).1 =
        jsBump m₀ (lowerStr c.name) c.quantity := by simp [countStep, hb]
      rw [hfst, jsBump_lookup]
      by_cases hkey : n = lowerStr c.name
      · have hcontrib : contrib n c = true := by simp [contrib, hb, hkey]
        have hsum : nonBasicSum (c :: rest) n = c.quantity + nonBasicSum rest n := by
          simp [nonBasicSum, List.filter_cons, hcontrib]
        have hany : (c :: rest).any (contrib n) = true := by
          simp [List.any_cons, hcontrib]
        rw [if_pos hkey, ← hkey, hsum, hany]
        cases h : m₀.lookup n with
        | some v =>
          simp only [h, Option.getD_some]
          rw [Option.some_inj]
          omega
        | none =>
          simp only [h, Option.getD_none, if_true]
          rw [Option.some_inj]
          omega
      · have hbeq : (lowerStr c.name == n) = false :=
          beq_eq_false_iff_ne.mpr fun he => hkey he.symm
        have hcontrib : contrib n c = false := by simp [contrib, hbeq]
        have hsum : nonBasicSum (c :: rest) n = nonBasicSum rest n := by
          simp [nonBasicSum, List.filter_cons, hcontrib]
        have hany : (c :: rest).any (contrib n) = rest.any (contrib n) := by
          simp [List.any_cons, hcontrib]
        rw [if_neg hkey, hsum, hany]

theorem countCards_lookup (cards : List CardEntry) (n : String) :
    (countCards cards).1.lookup n =
      (if cards.any (contrib n) then some (nonBasicSum cards n) else none) := by
  unfold countCards
  rw [foldl_countStep_lookup]
  simp [List.lookup]

theorem foldl_countStep_total (cards : List CardEntry) :
    ∀ (m₀ : List (String × Nat)) (t₀ l₀ : Nat),
      (cards.foldl countStep (m₀, t₀, l₀)).2.1 = t₀ + (cards.map (fun c => c.quantity)).sum := by
  induction cards with
  | nil => intros; simp
  | cons c rest ih =>
    intro m₀ t₀ l₀
    rw [List.foldl_cons]
    rw [show countStep (m₀, t₀, l₀) c =
      ((countStep (m₀, t₀, l₀) c).1, (countStep (m₀, t₀, l₀) c).2.1,
        (countStep (m₀, t₀, l₀) c).2.2) from rfl]
    rw [ih]
    show t₀ + c.quantity + _ = _
    rw [List.map_cons, List.sum_cons, Nat.add_assoc]

/-- C1: for every parsed deck, `totalCards` is the sum of all entry
quantities (basic lands included); `isValid` is exactly emptiness of the
`errors` list; every non-basic-land name whose case-insensitively summed
quantity exceeds 1 produces the duplicate error naming that (lower-cased)
card and its count; and on the spec's example deck — `2x Sol Ring` plus
98 distinct singletons with `expectedSize` 100 — the result is invalid
with exactly one error naming `sol ring` with count 2. -/
theorem claim_C1 :
    (∀ (cards : List CardEntry) (opts : ValidationOptions),
      (validateParsedDeck cards opts).totalCards = (cards.map (fun c => c.quantity)).sum) ∧
    (∀ (cards : List CardEntry) (opts : ValidationOptions),
      (validateParsedDeck cards opts).isValid = (validateParsedDeck cards opts).errors.isEmpty) ∧
    (∀ (cards : List CardEntry) (opts : ValidationOptions) (n : String),
      cards.any (contrib n) = true → 1 < nonBasicSum cards n →
      dupMsg n (nonBasicSum cards n) ∈ (validateParsedDeck cards opts).errors) ∧
    ((validateParsedDeck deck100 { expectedSize := 100 }).isValid = false ∧
      (validateParsedDeck deck100 { expectedSize := 100 }).errors = [dupMsg "sol ring" 2]) := by
  refine ⟨?_, fun _ _ => rfl, ?_, ?_, ?_⟩
  · intro cards opts
    show (countCards cards).2.1 = _
    unfold countCards
    rw [foldl_countStep_total, Nat.zero_add]
  · intro cards opts n hany hsum
    have hlook : (countCards cards).1.lookup n = some (nonBasicSum cards n) := by
      rw [countCards_lookup, if_pos hany]
    have hmem : (n, nonBasicSum cards n) ∈ (countCards cards).1 := lookup_mem hlook
    have hfil : (n, nonBasicSum cards n) ∈ (countCards cards).1.filter (fun p => p.2 > 1) := by
      rw [List.mem_filter]
      exact ⟨hmem, by simpa using hsum⟩
    have hmemmap : dupMsg n (nonBasicSum cards n) ∈
        ((countCards cards).1.filter (fun p => p.2 > 1)).map (fun p => dupMsg p.1 p.2) :=
      List.mem_map_of_mem _ hfil
    exact List.mem_append_left _ hmemmap
  · decide
  · decide

/-- C1 (witness): the duplicate-error implication of `claim_C1`
instantiated at the example deck and the name `sol ring`. -/
theorem claim_C1_witness :
    deck100.any (contrib "sol ring") = true ∧ 1 < nonBasicSum deck100 "sol ring" ∧
    dupMsg "sol ring" (nonBasicSum deck100 "sol ring") ∈
      (validateParsedDeck deck100 { expectedSize := 100 }).errors :=
  ⟨by decide, by decide, claim_C1.2.2.1 deck100 { expectedSize := 100 } "sol ring"
    (by decide) (by decide)⟩

/-! ## removeDuplicates (C7) -/

theorem removeDupGo_idem (cards : List CardEntry) :
    ∀ seen, removeDupGo seen (removeDupGo seen cards) = removeDupGo seen cards := by
  induction cards with
  | nil => intro seen; rfl
  | cons c rest ih =>
    intro seen
    by_cases hb : isBasicLand c.name
    · simp [removeDupGo, hb, ih]
    · by_cases hs : lowerStr c.name ∈ seen
      · simp [removeDupGo, hb, hs, ih]
      · simp [removeDupGo, hb, hs, ih]

theorem removeDupGo_filter_basic (cards : List CardEntry) :
    ∀ seen, (removeDupGo seen cards).filter (fun c => isBasicLand c.name) =
      cards.filter (fun c => isBasicLand c.name) := by
  induction cards with
  | nil => intro seen; rfl
  | cons c rest ih =>
    intro seen
    by_cases hb : isBasicLand c.name
    · simp [removeDupGo, hb, List.filter_cons, ih]
    · by_cases hs : lowerStr c.name ∈ seen
      · simp [removeDupGo, hb, hs, List.filter_cons, ih]
      · simp [removeDupGo, hb, hs, List.filter_cons, ih]

theorem removeDupGo_qty1 (cards : List CardEntry) :
    ∀ seen c, c ∈ removeDupGo seen cards → isBasicLand c.name = false → c.quantity = 1 := by
  induction cards with
  | nil => intro seen c hc; simp [removeDupGo] at hc
  | cons c₀ rest ih =>
    intro seen c hc hnb
    by_cases hb : isBasicLand c₀.name
    · rw [removeDupGo, if_pos hb] at hc
      rcases List.mem_cons.mp hc with heq | hc'
      · subst heq; exact absurd hnb (by simp [hb])
      · exact ih seen c hc' hnb
    · by_cases hs : seen.contains (lowerStr c₀.name)
      · rw [removeDupGo, if_neg hb, if_pos hs] at hc
        exact ih seen c hc hnb
      · rw [removeDupGo, if_neg hb, if_neg hs] at hc
        rcases List.mem_cons.mp hc with heq | hc'
        · rw [heq]
        · exact ih _ c hc' hnb

theorem removeDupGo_origin (cards : List CardEntry) :
    ∀ seen c', c' ∈ removeDupGo seen cards →
      ∃ c, c ∈ cards ∧ (c' = c ∨ c' = ⟨1, c.name⟩) := by
  induction cards with
  | nil => intro seen c' hc'; simp [removeDupGo] at hc'
  | cons c₀ rest ih =>
    intro seen c' hc'
    by_cases hb : isBasicLand c₀.name
    · rw [removeDupGo, if_pos hb] at hc'
      rcases List.mem_cons.mp hc' with heq | h
      · exact ⟨c₀, List.mem_cons_self _ _, Or.inl heq⟩
      · obtain ⟨c, hc, hor⟩ := ih seen c' h
        exact ⟨c, List.mem_cons_of_mem _ hc, hor⟩
    · by_cases hs : seen.contains (lowerStr c₀.name)
      · rw [removeDupGo, if_neg hb, if_pos hs] at hc'
        obtain ⟨c, hc, hor⟩ := ih seen c' hc'
        exact ⟨c, List.mem_cons_of_mem _ hc, hor⟩
      · rw [removeDupGo, if_neg hb, if_neg hs] at hc'
        rcases List.mem_cons.mp hc' with heq | h
        · exact ⟨c₀, List.mem_cons_self _ _, Or.inr heq⟩
        · obtain ⟨c, hc, hor⟩ := ih _ c' h
          exact ⟨c, List.mem_cons_of_mem _ hc, hor⟩

theorem removeDupGo_surv (cards : List CardEntry) :
    ∀ seen c, c ∈ cards →
      (seen.contains (lowerStr c.name) = true ∧ isBasicLand c.name = false) ∨
      ∃ c', c' ∈ removeDupGo seen cards ∧ lowerStr c'.name = lowerStr c.name := by
  induction cards with
  | nil => intro seen c hc; simp at hc
  | cons c₀ rest ih =>
    intro seen c hc
    by_cases hb : isBasicLand c₀.name
    · rw [removeDupGo, if_pos hb]
      rcases List.mem_cons.mp hc with heq | hc'
      · exact Or.inr ⟨c₀, List.mem_cons_self _ _, by rw [heq]⟩
      · rcases ih seen c hc' with hl | ⟨c', hc'', he⟩
        · exact Or.inl hl
        · exact Or.inr ⟨c', List.mem_cons_of_mem _ hc'', he⟩
    · by_cases hs : seen.contains (lowerStr c₀.name)
      · rw [removeDupGo, if_neg hb, if_pos hs]
        rcases List.mem_cons.mp hc with heq | hc'
        · refine Or.inl ⟨by rw [heq]; exact hs, ?_⟩
          rw [heq]
          simpa using hb
        · exact ih seen c hc'
      · rw [removeDupGo, if_neg hb, if_neg hs]
        rcases List.mem_cons.mp hc with heq | hc'
        · exact Or.inr ⟨⟨1, c₀.name⟩, List.mem_cons_self _ _, by rw [heq]⟩
        · rcases ih (seen ++ [lowerStr c₀.name]) c hc' with ⟨hl, hnb⟩ | ⟨c', hc'', he⟩
          · simp [List.mem_append] at hl
            rcases hl with hin | heq
            · exact Or.inl ⟨by simpa using hin, hnb⟩
            · exact Or.inr ⟨⟨1, c₀.name⟩, List.mem_cons_self _ _, heq.symm⟩
          · exact Or.inr ⟨c', List.mem_cons_of_mem _ hc'', he⟩

theorem removeDupGo_nodup (cards : List CardEntry) :
    ∀ seen : List String,
      ((((removeDupGo seen cards).filter (fun c => !isBasicLand c.name)).map
          (fun c => lowerStr c.name)).Nodup) ∧
      (∀ n ∈ (((removeDupGo seen cards).filter (fun c => !isBasicLand c.name)).map
          (fun c => lowerStr c.name)), n ∉ seen) := by
  induction cards with
  | nil =>
    intro seen
    refine ⟨by simp [removeDupGo], ?_⟩
    intro n hn
    simp [removeDupGo] at hn
  | cons c₀ rest ih =>
    intro seen
    by_cases hb : isBasicLand c₀.name
    · rw [removeDupGo, if_pos hb]
      simpa [List.filter_cons, hb] using ih seen
    · by_cases hs : seen.contains (lowerStr c₀.name)
      · rw [removeDupGo, if_neg hb, if_pos hs]
        exact ih seen
      · rw [removeDupGo, if_neg hb, if_neg hs]
        obtain ⟨ihn, ihs⟩ := ih (seen ++ [lowerStr c₀.name])
        have hcons :
            (((⟨1, c₀.name⟩ :: removeDupGo (seen ++ [lowerStr c₀.name]) rest).filter
              (fun c => !isBasicLand c.name)).map (fun c => lowerStr c.name)) =
            lowerStr c₀.name ::
              (((removeDupGo (seen ++ [lowerStr c₀.name]) rest).filter
                (fun c => !isBasicLand c.name)).map (fun c => lowerStr c.name)) := by
          simp [List.filter_cons, hb]
        rw [hcons]
        constructor
        · rw [List.nodup_cons]
          refine ⟨fun ha => ?_, ihn⟩
          have := ihs _ ha
          simp [List.mem_append] at this
        · intro n hn
          rcases List.mem_cons.mp hn with heq | hmem
          · subst heq
            simpa using hs
          · have := ihs n hmem
            intro hseen
            exact this (List.mem_append_left _ hseen)

/-- C7: `removeDuplicates` is idempotent; basic lands pass through every
occurrence unchanged (the basic-land sublist is preserved verbatim);
every kept non-basic entry has quantity forced to 1; each input name
survives (case-insensitively) into the output; every output entry is an
input entry, possibly with its quantity reset to 1; and the lower-cased
non-basic names of the output are pairwise distinct (only one occurrence
— the first — of each name is kept). -/
theorem claim_C7 :
    (∀ cards, removeDuplicates (removeDuplicates cards) = removeDuplicates cards) ∧
    (∀ cards, (removeDuplicates cards).filter (fun c => isBasicLand c.name) =
      cards.filter (fun c => isBasicLand c.name)) ∧
    (∀ cards c, c ∈ removeDuplicates cards → isBasicLand c.name = false → c.quantity = 1) ∧
    (∀ cards c, c ∈ cards →
      ∃ c', c' ∈ removeDuplicates cards ∧ lowerStr c'.name = lowerStr c.name) ∧
    (∀ cards c', c' ∈ removeDuplicates cards →
      ∃ c, c ∈ cards ∧ (c' = c ∨ c' = ⟨1, c.name⟩)) ∧
    (∀ cards, (((removeDuplicates cards).filter (fun c => !isBasicLand c.name)).map
      (fun c => lowerStr c.name)).Nodup) := by
  refine ⟨fun cards => removeDupGo_idem cards [],
    fun cards => removeDupGo_filter_basic cards [],
    fun cards c h => removeDupGo_qty1 cards [] c h,
    ?_,
    fun cards c' h => removeDupGo_origin cards [] c' h,
    fun cards => (removeDupGo_nodup cards []).1⟩
  intro cards c hc
  rcases removeDupGo_surv cards [] c hc with ⟨hl, _⟩ | h
  · simp at hl
  · exact h

/-- C7 (witness): the quantity-forcing implication of `claim_C7`
instantiated at the deck `[2x Sol Ring]`. -/
theorem claim_C7_witness :
    (CardEntry.mk 1 "Sol Ring") ∈ removeDuplicates [CardEntry.mk 2 "Sol Ring"] ∧
    isBasicLand "Sol Ring" = false ∧
    (CardEntry.mk 1 "Sol Ring").quantity = 1 :=
  ⟨by decide, by decide,
    claim_C7.2.2.1 [CardEntry.mk 2 "Sol Ring"] (CardEntry.mk 1 "Sol Ring")
      (by decide) (by decide)⟩

/-! ## Whitespace and trimming lemmas (for C2 and C4) -/

theorem dropWhile_head_not_ws :
    ∀ (l : List Char) (c : Char), (l.dropWhile isWs).head? = some c → isWs c = false := by
  intro l
  induction l with
  | nil => intro c h; simp at h
  | cons a as ih =>
    intro c h
    rw [List.dropWhile_cons] at h
    by_cases ha : isWs a
    · rw [if_pos ha] at h
      exact ih c h
    · rw [if_neg ha] at h
      rw [List.head?_cons, Option.some_inj] at h
      subst h
      simpa using ha

theorem dropTrailing_getLast_not_ws (l : List Char) (c : Char)
    (h : (dropTrailing l).getLast? = some c) : isWs c = false := by
  unfold dropTrailing at h
  rw [List.getLast?_reverse] at h
  exact dropWhile_head_not_ws _ c h

theorem dropTrailing_pre (l : List Char) : dropTrailing l <+: l := by
  apply List.reverse_suffix.mp
  unfold dropTrailing
  rw [List.reverse_reverse]
  exact List.dropWhile_suffix _

theorem isPrefix_head {l₁ l₂ : List Char} (h : l₁ <+: l₂) (hne : l₁ ≠ []) :
    l₂.head? = l₁.head? := by
  obtain ⟨t, rfl⟩ := h
  cases l₁ with
  | nil => exact absurd rfl hne
  | cons a as => rfl

theorem getLast?_append_right {w l : List Char} (h : l ≠ []) :
    (w ++ l).getLast? = l.getLast? := by
  cases hrev : l.reverse with
  | nil => exact absurd (by simpa using congrArg List.reverse hrev) h
  | cons a t =>
    rw [← List.head?_reverse, ← List.head?_reverse, List.reverse_append, hrev]
    rfl

theorem dropWhile_eq_self_of_head {l : List Char}
    (h : ∀ c, l.head? = some c → isWs c = false) : l.dropWhile isWs = l := by
  cases l with
  | nil => rfl
  | cons a as =>
    rw [List.dropWhile_cons, if_neg (by simp [h a rfl])]

theorem trimChars_eq_self {l : List Char}
    (hh : ∀ c, l.head? = some c → isWs c = false)
    (hl : ∀ c, l.getLast? = some c → isWs c = false) : trimChars l = l := by
  unfold trimChars dropTrailing
  rw [dropWhile_eq_self_of_head hh]
  rw [dropWhile_eq_self_of_head (fun c hc => hl c (by rwa [List.head?_reverse] at hc))]
  exact List.reverse_reverse l

theorem trimChars_head {l : List Char} {c : Char} (h : (trimChars l).head? = some c) :
    isWs c = false := by
  have hne : trimChars l ≠ [] := by intro he; rw [he] at h; cases h
  have hpre : trimChars l <+: l.dropWhile isWs := dropTrailing_pre _
  apply dropWhile_head_not_ws l c
  rw [isPrefix_head hpre hne]
  exact h

theorem trimChars_last {l : List Char} {c : Char} (h : (trimChars l).getLast? = some c) :
    isWs c = false :=
  dropTrailing_getLast_not_ws _ c h

theorem trimChars_idem (l : List Char) : trimChars (trimChars l) = trimChars l := by
  cases he : trimChars l with
  | nil => rfl
  | cons a as =>
    apply trimChars_eq_self
    · intro c hc
      apply trimChars_head (l := l)
      rw [he]
      exact hc
    · intro c hc
      apply trimChars_last (l := l)
      rw [he]
      exact hc

theorem trimChars_sublist (l : List Char) : List.Sublist (trimChars l) l :=
  ((dropTrailing_pre _).sublist).trans (List.dropWhile_suffix _).sublist

theorem mem_dropWhile_of_not {l : List Char} {c : Char} (hc : c ∈ l) (hw : isWs c = false) :
    c ∈ l.dropWhile isWs := by
  induction l with
  | nil => cases hc
  | cons a as ih =>
    rw [List.dropWhile_cons]
    by_cases ha : isWs a
    · rw [if_pos ha]
      rcases List.mem_cons.mp hc with heq | h
      · subst heq; exact absurd ha (by simp [hw])
      · exact ih h
    · rw [if_neg ha]
      exact hc

theorem trimChars_ne_nil {l : List Char} {c : Char} (hc : c ∈ l) (hw : isWs c = false) :
    trimChars l ≠ [] := by
  intro he
  have h1 : c ∈ l.dropWhile isWs := mem_dropWhile_of_not hc hw
  have h2 : c ∈ (l.dropWhile isWs).reverse := List.mem_reverse.mpr h1
  have h3 : c ∈ (l.dropWhile isWs).reverse.dropWhile isWs := mem_dropWhile_of_not h2 hw
  unfold trimChars dropTrailing at he
  rw [List.reverse_eq_nil_iff] at he
  rw [he] at h3
  cases h3

/-! ## Parser characterization (for C2 and C4) -/

theorem regexTail_some {r n : List Char} (h : regexTail r = some n) :
    n = r.dropWhile isWs ∧ n ≠ [] ∧ (∀ c ∈ n, c ≠ '\n' ∧ c ≠ '\r') := by
  cases r with
  | nil => cases h
  | cons a r' =>
    rw [show regexTail (a :: r') =
      (if isWs a then
        if (a :: r').dropWhile isWs ≠ [] ∧
            ((a :: r').dropWhile isWs).all (fun ch => ch ≠ '\n' ∧ ch ≠ '\r') then
          some ((a :: r').dropWhile isWs)
        else none
      else none) from rfl] at h
    by_cases ha : isWs a
    · rw [if_pos ha] at h
      by_cases hc : (a :: r').dropWhile isWs ≠ [] ∧
          ((a :: r').dropWhile isWs).all (fun ch => ch ≠ '\n' ∧ ch ≠ '\r')
      · rw [if_pos hc, Option.some_inj] at h
        subst h
        refine ⟨rfl, hc.1, ?_⟩
        intro c hcm
        have := List.all_eq_true.mp hc.2 c hcm
        simpa using this
      · rw [if_neg hc] at h
        cases h
    · rw [if_neg ha] at h
      cases h

theorem matchQty_name {t : List Char} {q : Nat} {nm : List Char}
    (h : matchQty t = some (q, nm)) :
    ∃ n, nm = trimChars n ∧ n ≠ [] ∧
      (∀ c, n.head? = some c → isWs c = false) ∧
      List.Sublist n t ∧ (∀ c ∈ n, c ≠ '\n' ∧ c ≠ '\r') := by
  unfold matchQty at h
  by_cases hds : t.takeWhile Char.isDigit = []
  · rw [if_pos hds] at h
    cases h
  · rw [if_neg hds] at h
    have hrest : List.Sublist (t.dropWhile Char.isDigit) t :=
      (List.dropWhile_suffix _).sublist
    cases hr : t.dropWhile Char.isDigit with
    | nil =>
      rw [hr] at h
      cases h
    | cons c r =>
      rw [hr] at h
      rw [hr] at hrest
      rw [show (match c :: r with
        | [] => (none : Option (List Char))
        | c :: r => if c = 'x' ∨ c = 'X' then regexTail r else regexTail (c :: r)) =
        (if c = 'x' ∨ c = 'X' then regexTail r else regexTail (c :: r)) from rfl] at h
      by_cases hx : c = 'x' ∨ c = 'X'
      · rw [if_pos hx] at h
        cases hrt : regexTail r with
        | none => rw [hrt] at h; cases h
        | some n =>
          rw [hrt] at h
          rw [Option.map_some', Option.some_inj] at h
          obtain ⟨hn, hnne, hnchars⟩ := regexTail_some hrt
          refine ⟨n, congrArg Prod.snd h.symm, hnne, ?_, ?_, hnchars⟩
          · intro c0 hc0
            apply dropWhile_head_not_ws r c0
            rw [← hn]
            exact hc0
          · have h1 : List.Sublist n r := hn ▸ (List.dropWhile_suffix _).sublist
            have h2 : List.Sublist r (c :: r) := List.sublist_cons_self c r
            exact (h1.trans h2).trans hrest
      · rw [if_neg hx] at h
        cases hrt : regexTail (c :: r) with
        | none => rw [hrt] at h; cases h
        | some n =>
          rw [hrt] at h
          rw [Option.map_some', Option.some_inj] at h
          obtain ⟨hn, hnne, hnchars⟩ := regexTail_some hrt
          refine ⟨n, congrArg Prod.snd h.symm, hnne, ?_, ?_, hnchars⟩
          · intro c0 hc0
            apply dropWhile_head_not_ws (c :: r) c0
            rw [← hn]
            exact hc0
          · have h1 : List.Sublist n (c :: r) := hn ▸ (List.dropWhile_suffix _).sublist
            exact h1.trans hrest

theorem parseLine_name {line : List Char} {e : CardEntry} (h : parseLine line = some e) :
    e.name.data ≠ [] ∧ trimChars e.name.data = e.name.data ∧ (∀ c ∈ e.name.data, c ∈ line) := by
  unfold parseLine at h
  by_cases h1 : trimChars line = []
  · rw [if_pos h1] at h; cases h
  · rw [if_neg h1] at h
    by_cases h2 : ['#'].isPrefixOf (trimChars line) ∨ ['*', '*'].isPrefixOf (trimChars line) ∨
        ['#', '#', '#'].isPrefixOf (trimChars line)
    · rw [if_pos h2] at h; cases h
    · rw [if_neg h2] at h
      by_cases h3 : (categoryWords.any (fun w => isInfixOfC w (toLowerC (trimChars line))))
          ∧ ¬ ((trimChars line).head?.elim false Char.isDigit)
      · rw [if_pos h3] at h; cases h
      · rw [if_neg h3] at h
        cases hm : matchQty (trimChars line) with
        | some p =>
          obtain ⟨q, nm⟩ := p
          rw [hm] at h
          rw [show (match some (q, nm) with
            | some (q, n) => some (⟨q, String.mk n⟩ : CardEntry)
            | none =>
              if ¬ (trimChars line).contains ':' ∧ (trimChars line).length > 2 then
                some ⟨1, String.mk (trimChars line)⟩
              else none) = some (⟨q, String.mk nm⟩ : CardEntry) from rfl,
            Option.some_inj] at h
          obtain ⟨n, hnm, hnne, hnhead, hnsub, _⟩ := matchQty_name hm
          have hdata : e.name.data = trimChars n := by
            rw [← h, hnm]
          obtain ⟨c0, hc0⟩ : ∃ c0, n.head? = some c0 := by
            cases n with
            | nil => exact absurd rfl hnne
            | cons a as => exact ⟨a, rfl⟩
          have hc0mem : c0 ∈ n := by
            cases n with
            | nil => cases hc0
            | cons a as =>
              rw [List.head?_cons, Option.some_inj] at hc0
              subst hc0
              exact List.mem_cons_self _ _
          refine ⟨?_, ?_, ?_⟩
          · rw [hdata]
            exact trimChars_ne_nil hc0mem (hnhead c0 hc0)
          · rw [hdata]
            exact trimChars_idem n
          · intro c hc
            rw [hdata] at hc
            have hmem1 : c ∈ n := (trimChars_sublist n).mem hc
            have hmem2 : c ∈ trimChars line := hnsub.mem hmem1
            exact (trimChars_sublist line).mem hmem2
        | none =>
          rw [hm] at h
          rw [show (match (none : Option (Nat × List Char)) with
            | some (q, n) => some (⟨q, String.mk n⟩ : CardEntry)
            | none =>
              if ¬ (trimChars line).contains ':' ∧ (trimChars line).length > 2 then
                some ⟨1, String.mk (trimChars line)⟩
              else none) =
            (if ¬ (trimChars line).contains ':' ∧ (trimChars line).length > 2 then
              some (⟨1, String.mk (trimChars line)⟩ : CardEntry)
            else none) from rfl] at h
          by_cases h4 : ¬ (trimChars line).contains ':' ∧ (trimChars line).length > 2
          · rw [if_pos h4, Option.some_inj] at h
            have hdata : e.name.data = trimChars line := by rw [← h]
            refine ⟨?_, ?_, ?_⟩
            · rw [hdata]; exact h1
            · rw [hdata]; exact trimChars_idem line
            · intro c hc
              rw [hdata] at hc
              exact (trimChars_sublist line).mem hc
          · rw [if_neg h4] at h; cases h

theorem parseLine_nice {line : List Char} {e : CardEntry} (h : parseLine line = some e)
    (hline : ∀ c ∈ line, c ≠ '\n' ∧ c ≠ '\r') : NiceName e.name.data := by
  obtain ⟨hne, hfix, hmem⟩ := parseLine_name h
  refine ⟨hne, ?_, ?_, fun c hc => hline c (hmem c hc)⟩
  · intro c hc
    apply trimChars_head (l := e.name.data)
    rw [hfix]
    exact hc
  · intro c hc
    apply trimChars_last (l := e.name.data)
    rw [hfix]
    exact hc

theorem parseLine_format {n : List Char} (hn : NiceName n) :
    parseLine ('1' :: 'x' :: ' ' :: n) = some ⟨1, String.mk n⟩ := by
  obtain ⟨hne, hh, hl, hchars⟩ := hn
  have hlast : ∀ c, ('1' :: 'x' :: ' ' :: n).getLast? = some c → isWs c = false := by
    intro c hc
    rw [show ('1' :: 'x' :: ' ' :: n) = ['1', 'x', ' '] ++ n from rfl,
      getLast?_append_right hne] at hc
    exact hl c hc
  have htrim : trimChars ('1' :: 'x' :: ' ' :: n) = '1' :: 'x' :: ' ' :: n :=
    trimChars_eq_self
      (by intro c hc; rw [List.head?_cons, Option.some_inj] at hc; subst hc; decide)
      hlast
  have hdw : n.dropWhile isWs = n := dropWhile_eq_self_of_head hh
  have hrt : regexTail (' ' :: n) = some n := by
    rw [show regexTail (' ' :: n) =
      (if isWs ' ' then
        if (' ' :: n).dropWhile isWs ≠ [] ∧
            ((' ' :: n).dropWhile isWs).all (fun ch => ch ≠ '\n' ∧ ch ≠ '\r') then
          some ((' ' :: n).dropWhile isWs)
        else none
      else none) from rfl]
    have hd2 : (' ' :: n).dropWhile isWs = n := by
      rw [List.dropWhile_cons, if_pos (by decide)]
      exact hdw
    rw [if_pos (by decide), hd2, if_pos]
    exact ⟨hne, List.all_eq_true.mpr fun c hc => by simpa using hchars c hc⟩
  have hmq : matchQty ('1' :: 'x' :: ' ' :: n) = some (1, n) := by
    unfold matchQty
    have ht1 : ('1' :: 'x' :: ' ' :: n).takeWhile Char.isDigit = ['1'] := by
      rw [List.takeWhile_cons, if_pos (by decide), List.takeWhile_cons, if_neg (by decide)]
    have ht2 : ('1' :: 'x' :: ' ' :: n).dropWhile Char.isDigit = 'x' :: ' ' :: n := by
      rw [List.dropWhile_cons, if_pos (by decide), List.dropWhile_cons, if_neg (by decide)]
    rw [ht1, ht2]
    rw [if_neg (by simp)]
    rw [show (match 'x' :: ' ' :: n with
      | [] => (none : Option (List Char))
      | c :: r => if c = 'x' ∨ c = 'X' then regexTail r else regexTail (c :: r)) =
      (if ('x' : Char) = 'x' ∨ ('x' : Char) = 'X' then regexTail (' ' :: n)
        else regexTail ('x' :: ' ' :: n)) from rfl]
    rw [if_pos (Or.inl rfl), hrt, Option.map_some']
    rw [show natOfDigits ['1'] = 1 from rfl, trimChars_eq_self hh hl]
  have hp1 : ['#'].isPrefixOf ('1' :: 'x' :: ' ' :: n) = false := rfl
  have hp2 : ['*', '*'].isPrefixOf ('1' :: 'x' :: ' ' :: n) = false := rfl
  have hp3 : ['#', '#', '#'].isPrefixOf ('1' :: 'x' :: ' ' :: n) = false := rfl
  unfold parseLine
  rw [htrim]
  rw [if_neg (by simp)]
  rw [if_neg (by rw [hp1, hp2, hp3]; simp)]
  rw [if_neg (fun hcond => hcond.2 (by rfl))]
  rw [hmq]

/-! ## Line splitting and joining (for C2) -/

theorem splitNl_ne_nil (l : List Char) : splitNl l ≠ [] := by
  cases l with
  | nil => simp [splitNl]
  | cons a as =>
    rw [show splitNl (a :: as) = (match splitNl as with
      | [] => [[a]]
      | h :: t => if a = '\n' then [] :: h :: t else (a :: h) :: t) from rfl]
    cases splitNl as with
    | nil => simp
    | cons h t => by_cases ha : a = '\n' <;> simp [ha]

theorem splitNl_singleton {x : List Char} (hx : ∀ c ∈ x, c ≠ '\n') : splitNl x = [x] := by
  induction x with
  | nil => rfl
  | cons a as ih =>
    rw [show splitNl (a :: as) = (match splitNl as with
      | [] => [[a]]
      | h :: t => if a = '\n' then [] :: h :: t else (a :: h) :: t) from rfl]
    rw [ih (fun c hc => hx c (List.mem_cons_of_mem _ hc))]
    simp [hx a (List.mem_cons_self _ _)]

theorem splitNl_append {x r : List Char} (hx : ∀ c ∈ x, c ≠ '\n') :
    splitNl (x ++ '\n' :: r) = x :: splitNl r := by
  induction x with
  | nil =>
    rw [List.nil_append]
    rw [show splitNl ('\n' :: r) = (match splitNl r with
      | [] => [['\n']]
      | h :: t => if '\n' = '\n' then [] :: h :: t else ('\n' :: h) :: t) from rfl]
    cases hsp : splitNl r with
    | nil => exact absurd hsp (splitNl_ne_nil r)
    | cons h t => simp
  | cons a x' ih =>
    have ha : a ≠ '\n' := hx a (List.mem_cons_self _ _)
    rw [List.cons_append]
    rw [show splitNl (a :: (x' ++ '\n' :: r)) = (match splitNl (x' ++ '\n' :: r) with
      | [] => [[a]]
      | h :: t => if a = '\n' then [] :: h :: t else (a :: h) :: t) from rfl]
    rw [ih (fun c hc => hx c (List.mem_cons_of_mem _ hc))]
    simp [ha]

theorem splitNl_joinNl : ∀ (ls : List (List Char)), ls ≠ [] →
    (∀ piece ∈ ls, ∀ c ∈ piece, c ≠ '\n') → splitNl (joinNl ls) = ls := by
  intro ls
  induction ls with
  | nil => intro h; exact absurd rfl h
  | cons x rest ih =>
    intro _ hpieces
    cases rest with
    | nil =>
      rw [show joinNl [x] = x from rfl]
      exact splitNl_singleton (hpieces x (List.mem_cons_self _ _))
    | cons y rest' =>
      rw [show joinNl (x :: y :: rest') = x ++ '\n' :: joinNl (y :: rest') from rfl]
      rw [splitNl_append (hpieces x (List.mem_cons_self _ _))]
      rw [ih (by simp) (fun p hp c hc => hpieces p (List.mem_cons_of_mem _ hp) c hc)]

theorem mem_splitNl_no_newline :
    ∀ (l piece : List Char), piece ∈ splitNl l → ∀ c ∈ piece, c ≠ '\n' := by
  intro l
  induction l with
  | nil =>
    intro piece hp c hc
    simp [splitNl] at hp
    subst hp
    cases hc
  | cons a as ih =>
    intro piece hp c hc
    rw [show splitNl (a :: as) = (match splitNl as with
      | [] => [[a]]
      | h :: t => if a = '\n' then [] :: h :: t else (a :: h) :: t) from rfl] at hp
    cases hsp : splitNl as with
    | nil => exact absurd hsp (splitNl_ne_nil as)
    | cons h t =>
      rw [hsp] at hp
      rw [show (match h :: t with
        | [] => [[a]]
        | h :: t => if a = '\n' then [] :: h :: t else (a :: h) :: t) =
        (if a = '\n' then [] :: h :: t else (a :: h) :: t) from rfl] at hp
      by_cases ha : a = '\n'
      · rw [if_pos ha] at hp
        rcases List.mem_cons.mp hp with heq | hmem
        · subst heq; cases hc
        · exact ih piece (by rw [hsp]; exact hmem) c hc
      · rw [if_neg ha] at hp
        rcases List.mem_cons.mp hp with heq | hmem
        · subst heq
          rcases List.mem_cons.mp hc with heq2 | hmem2
          · subst heq2; exact ha
          · exact ih h (by rw [hsp]; exact List.mem_cons_self _ _) c hmem2
        · exact ih piece (by rw [hsp]; exact List.mem_cons_of_mem _ hmem) c hc

theorem mem_splitNl_subset :
    ∀ (l piece : List Char), piece ∈ splitNl l → ∀ c ∈ piece, c ∈ l := by
  intro l
  induction l with
  | nil =>
    intro piece hp c hc
    simp [splitNl] at hp
    subst hp
    cases hc
  | cons a as ih =>
    intro piece hp c hc
    rw [show splitNl (a :: as) = (match splitNl as with
      | [] => [[a]]
      | h :: t => if a = '\n' then [] :: h :: t else (a :: h) :: t) from rfl] at hp
    cases hsp : splitNl as with
    | nil => exact absurd hsp (splitNl_ne_nil as)
    | cons h t =>
      rw [hsp] at hp
      rw [show (match h :: t with
        | [] => [[a]]
        | h :: t => if a = '\n' then [] :: h :: t else (a :: h) :: t) =
        (if a = '\n' then [] :: h :: t else (a :: h) :: t) from rfl] at hp
      by_cases ha : a = '\n'
      · rw [if_pos ha] at hp
        rcases List.mem_cons.mp hp with heq | hmem
        · subst heq; cases hc
        · exact List.mem_cons_of_mem _ (ih piece (by rw [hsp]; exact hmem) c hc)
      · rw [if_neg ha] at hp
        rcases List.mem_cons.mp hp with heq | hmem
        · subst heq
          rcases List.mem_cons.mp hc with heq2 | hmem2
          · subst heq2; exact List.mem_cons_self _ _
          · exact List.mem_cons_of_mem _
              (ih h (by rw [hsp]; exact List.mem_cons_self _ _) c hmem2)
        · exact List.mem_cons_of_mem _
            (ih piece (by rw [hsp]; exact List.mem_cons_of_mem _ hmem) c hc)

theorem filterMap_parseLine_fmt (cards : List CardEntry)
    (h : ∀ e ∈ cards, NiceName e.name.data) :
    (cards.map (fun c => '1' :: 'x' :: ' ' :: c.name.data)).filterMap parseLine =
      cards.map (fun c => CardEntry.mk 1 c.name) := by
  induction cards with
  | nil => rfl
  | cons c rest ih =>
    rw [List.map_cons, List.map_cons,
      List.filterMap_cons_some (parseLine_format (h c (List.mem_cons_self _ _))),
      ih (fun e he => h e (List.mem_cons_of_mem _ he))]

theorem parse_format_of_nice (cards : List CardEntry)
    (h : ∀ e ∈ cards, NiceName e.name.data) :
    parseDeckList (formatDeckList cards) = cards.map (fun c => CardEntry.mk 1 c.name) := by
  cases cards with
  | nil => rfl
  | cons c₀ rest =>
    show ((splitNl (joinNl ((c₀ :: rest).map
      (fun c => '1' :: 'x' :: ' ' :: c.name.data)))).filterMap parseLine) = _
    rw [splitNl_joinNl _ (by simp) ?pieces]
    · exact filterMap_parseLine_fmt _ h
    case pieces =>
      intro piece hpiece c hcp
      obtain ⟨e, he, heq⟩ := List.mem_map.mp hpiece
      subst heq
      simp only [List.mem_cons] at hcp
      rcases hcp with rfl | rfl | rfl | hc
      · decide
      · decide
      · decide
      · exact ((h e he).2.2.2 c hc).1

/-- C2 (counterexample): the claim says round-tripping preserves the
original quantities; `formatDeckList` hard-codes `1x ` on every line, so
`2 Sol Ring` re-parses with quantity 1, not 2. -/
theorem claim_C2_counterexample :
    parseDeckList "2 Sol Ring" = [CardEntry.mk 2 "Sol Ring"] ∧
    parseDeckList (formatDeckList (parseDeckList "2 Sol Ring")) =
      [CardEntry.mk 1 "Sol Ring"] ∧
    CardEntry.mk 1 "Sol Ring" ≠ CardEntry.mk 2 "Sol Ring" := by
  decide

/-- C2 (amended): for every input text (without embedded carriage
returns, which the regex dot cannot re-match), re-parsing the output of
`formatDeckList (parseDeckList text)` reproduces the parsed names in
order, each with quantity 1 — quantities greater than 1 are collapsed to
1, not preserved, since `formatDeckList` writes `1x ` on every line. -/
theorem claim_C2 (deckText : String) (hcr : ∀ c ∈ deckText.data, c ≠ '\r') :
    parseDeckList (formatDeckList (parseDeckList deckText)) =
      (parseDeckList deckText).map (fun c => CardEntry.mk 1 c.name) := by
  apply parse_format_of_nice
  intro e he
  obtain ⟨line, hline, hp⟩ := List.mem_filterMap.mp he
  exact parseLine_nice hp (fun c hc =>
    ⟨mem_splitNl_no_newline deckText.data line hline c hc,
     hcr c (mem_splitNl_subset deckText.data line hline c hc)⟩)

/-- C2 (witness): the amended theorem at a two-line deck list with a
quantity greater than 1. -/
theorem claim_C2_witness :
    (∀ c ∈ ("1x Sol Ring\n2 Forest" : String).data, c ≠ '\r') ∧
    parseDeckList (formatDeckList (parseDeckList "1x Sol Ring\n2 Forest")) =
      (parseDeckList "1x Sol Ring\n2 Forest").map (fun c => CardEntry.mk 1 c.name) :=
  ⟨by decide, claim_C2 "1x Sol Ring\n2 Forest" (by decide)⟩

/-- C4 (counterexample): the claim requires quantity ≥ 1 for every
entry; the line `0 Foo` matches the quantity pattern with the explicit
count 0 and parses to an entry of quantity 0. -/
theorem claim_C4_counterexample :
    parseDeckList "0 Foo" = [CardEntry.mk 0 "Foo"] ∧
    (CardEntry.mk 0 "Foo").quantity < 1 := by
  decide

/-- C4 (amended): every CardEntry produced by `parseDeckList` has a
non-empty name; the quantity is the explicitly written count (1 for bare
names), so it can be 0 when a line carries a literal leading 0 —
quantity ≥ 1 does not hold in general. -/
theorem claim_C4 (deckText : String) :
    ∀ e ∈ parseDeckList deckText, e.name ≠ "" := by
  intro e he
  obtain ⟨line, _, hp⟩ := List.mem_filterMap.mp he
  obtain ⟨hne, _, _⟩ := parseLine_name hp
  intro h
  exact hne (congrArg String.data h)

/-- C4 (witness): the amended theorem at the one-line text `Sol Ring`. -/
theorem claim_C4_witness :
    (CardEntry.mk 1 "Sol Ring") ∈ parseDeckList "Sol Ring" ∧
    (CardEntry.mk 1 "Sol Ring").name ≠ "" :=
  ⟨by decide, claim_C4 "Sol Ring" (CardEntry.mk 1 "Sol Ring") (by decide)⟩
